import Mathlib

/-!
Verification of the Lily58 OLED configurator's device-transport core
(`oled_configurator.py`): bitmap packing, chunked HID transfer with
per-chunk acknowledgment, completion signaling, protocol-version probing
and device discovery.

Machine bytes are modelled as `Nat`; HID reports as `List Nat`.  The HID
transport is modelled as an oracle `acks : Nat → Bool` telling, for each
read performed by the session (reads happen strictly in order), whether
`read_with_timeout` returned a response (`true`) or timed out / raised
(`false`); the program never inspects any acknowledgment's content.
-/

namespace Oled

/-- VIA command byte for the custom OLED transfer (source line 16). -/
def VIA_COMMAND_OLED : Nat := 0x40

/-- VIA command byte for the protocol-version query (source line 17). -/
def VIA_COMMAND_GET_PROTOCOL_VERSION : Nat := 0x01

/-! ## Bitmap packer (source lines 361-368)

The Python loop builds, for each group start `i` (multiples of 8), a byte
`byte |= (pixels[i + bit] > 0) << (7 - bit)` for `bit` in `0..7`, guarded
by `i + bit < len(pixels)`.  `List.getD _ _ 0` encodes the out-of-range
guard: a missing pixel reads as 0, contributing nothing, exactly like the
skipped iteration in the source. -/

/-- One inner-loop contribution: `(pixels[i + bit] > 0) << (7 - bit)`. -/
def bitTerm (pixels : List Nat) (i bit : Nat) : Nat :=
  (if 0 < pixels.getD (i + bit) 0 then 1 else 0) <<< (7 - bit)

/-- The inner loop of the packer: or together the 8 bit contributions of
the group starting at pixel index `i`. -/
def byteOfGroupAt (pixels : List Nat) (i : Nat) : Nat :=
  (List.range 8).foldl (fun byte bit => byte ||| bitTerm pixels i bit) 0

/-- The packer: one byte per 8-pixel group, `ceil(len/8)` groups, group
`g` starting at pixel index `g * 8` (the Python `range(0, len(pixels), 8)`). -/
def packBits (pixels : List Nat) : List Nat :=
  (List.range ((pixels.length + 7) / 8)).map (fun g => byteOfGroupAt pixels (g * 8))

/-- Modelled from the spec: the unpacker ("reversing the bit-grouping") is
not part of the source; pixel `j` of the output is bit `7 - j % 8` of
packed byte `j / 8`, i.e. the first pixel of each group sits in the
most-significant bit. -/
def unpackBits (packed : List Nat) (len : Nat) : List Nat :=
  (List.range len).map (fun j => if (packed.getD (j / 8) 0).testBit (7 - j % 8) then 1 else 0)

lemma testBit_bitTerm (pixels : List Nat) (i k b : Nat) (hk : k < 8) (hb : b < 8) :
    (bitTerm pixels i k).testBit (7 - b) =
      (decide (k = b) && decide (0 < pixels.getD (i + k) 0)) := by
  unfold bitTerm
  split
  · next h =>
    rw [Nat.one_shiftLeft, Nat.testBit_two_pow, decide_eq_true h, Bool.and_true]
    have e : (7 - k = 7 - b) ↔ (k = b) := by omega
    simp [e]
  · next h =>
    rw [Nat.zero_shiftLeft, Nat.zero_testBit, decide_eq_false h, Bool.and_false]

lemma testBit_byteOfGroupAt (pixels : List Nat) (i b : Nat) (hb : b < 8) :
    (byteOfGroupAt pixels i).testBit (7 - b) = decide (0 < pixels.getD (i + b) 0) := by
  have e : byteOfGroupAt pixels i =
      ((((((((0 ||| bitTerm pixels i 0) ||| bitTerm pixels i 1) ||| bitTerm pixels i 2) |||
        bitTerm pixels i 3) ||| bitTerm pixels i 4) ||| bitTerm pixels i 5) |||
          bitTerm pixels i 6) ||| bitTerm pixels i 7) := rfl
  rw [e]
  simp only [Nat.testBit_lor, Nat.zero_testBit,
    testBit_bitTerm pixels i 0 b (by omega) hb, testBit_bitTerm pixels i 1 b (by omega) hb,
    testBit_bitTerm pixels i 2 b (by omega) hb, testBit_bitTerm pixels i 3 b (by omega) hb,
    testBit_bitTerm pixels i 4 b (by omega) hb, testBit_bitTerm pixels i 5 b (by omega) hb,
    testBit_bitTerm pixels i 6 b (by omega) hb, testBit_bitTerm pixels i 7 b (by omega) hb]
  interval_cases b <;> simp

lemma length_packBits (pixels : List Nat) :
    (packBits pixels).length = (pixels.length + 7) / 8 := by
  simp [packBits]

lemma unpackBits_packBits (pixels : List Nat) (h1 : ∀ p ∈ pixels, p ≤ 1) :
    unpackBits (packBits pixels) pixels.length = pixels := by
  apply List.ext_getElem
  · simp [unpackBits]
  · intro j hj1 hj2
    have hj : j < pixels.length := by simpa [unpackBits] using hj1
    have hdiv : j / 8 < (pixels.length + 7) / 8 := by omega
    have hgd : (packBits pixels).getD (j / 8) 0 = byteOfGroupAt pixels (j / 8 * 8) := by
      rw [List.getD_eq_getElem?_getD]
      rw [packBits, List.getElem?_map]
      rw [List.getElem?_range hdiv]
      rfl
    have hmod : j % 8 < 8 := Nat.mod_lt _ (by omega)
    have hidx : j / 8 * 8 + j % 8 = j := by omega
    have hb := testBit_byteOfGroupAt pixels (j / 8 * 8) (j % 8) hmod
    rw [hidx] at hb
    have hget : pixels.getD j 0 = pixels[j] := by
      rw [List.getD_eq_getElem?_getD, List.getElem?_eq_getElem hj]
      rfl
    have hpx : pixels[j] ≤ 1 := h1 _ (List.getElem_mem hj)
    simp only [unpackBits, List.getElem_map, List.getElem_range]
    rw [hgd, hb, hget]
    rcases Nat.le_one_iff_eq_zero_or_eq_one.mp hpx with h | h <;> simp [h]

/-! ## Panel transfer session (`send_to_oled`, source lines 354-432)

The source computes `chunk_size = 28`, `total_chunks = (len + 27) // 28`,
then for each chunk index writes a 32-byte report
`[0x00, VIA_COMMAND_OLED, panel, chunk_index] ++ chunk` padded with zeros,
waits for an acknowledgment (0.5 s timeout; a missing one raises
`TimeoutError` and aborts), and finally writes a completion report with
chunk-index byte `0xFF` and waits for its acknowledgment. -/

/-- `chunk_size = 28  # 32 - 4 bytes for header` (source line 371). -/
def chunk_size : Nat := 28

/-- `total_chunks = (len(bytes_data) + chunk_size - 1) // chunk_size` (line 372). -/
def totalChunks (bytes_data : List Nat) : Nat :=
  (bytes_data.length + chunk_size - 1) / chunk_size

/-- The slice `bytes_data[start_idx:end_idx]` with `start_idx = i * 28` and
`end_idx = min(start_idx + 28, len(bytes_data))` (lines 375-377). -/
def chunkOf (bytes_data : List Nat) (i : Nat) : List Nat :=
  (bytes_data.drop (i * chunk_size)).take
    (min (i * chunk_size + chunk_size) bytes_data.length - i * chunk_size)

/-- Panel selector byte: `0x01 if oled_side == "left" else 0x02` (lines 383, 411). -/
def panelByte (oled_side : String) : Nat := if oled_side = "left" then 0x01 else 0x02

/-- `while len(command) < 32: command.append(0)` (lines 391-392). -/
def padTo32 (command : List Nat) : List Nat :=
  command ++ List.replicate (32 - command.length) 0

/-- The data-chunk report for chunk `i` (lines 380-392). -/
def chunkReport (oled_side : String) (bytes_data : List Nat) (i : Nat) : List Nat :=
  padTo32 ([0x00, VIA_COMMAND_OLED, panelByte oled_side, i] ++ chunkOf bytes_data i)

/-- The completion report: `[0x00, VIA_COMMAND_OLED, panel, 0xFF] + [0]*28` (lines 408-414). -/
def completionReport (oled_side : String) : List Nat :=
  [0x00, VIA_COMMAND_OLED, panelByte oled_side, 0xFF] ++ List.replicate 28 0

/-- Outcome of a transfer: success, or the `TimeoutError` raised for an
unacknowledged chunk `i` (line 401), or the `TimeoutError` raised for an
unacknowledged completion report (line 422). -/
inductive SendResult
  | success
  | chunkTimeout (i : Nat)
  | completionTimeout
deriving DecidableEq, Repr

/-- The chunk loop from chunk index `i` with `fuel` chunks left to send,
followed by the completion handshake; returns the outcome and the list of
reports written, in order.  `acks n` is the transport oracle for the `n`-th
read (the read after chunk `n`, or after the completion report when
`n = totalChunks`). -/
def sendFrom (oled_side : String) (bytes_data : List Nat) (acks : Nat → Bool) :
    Nat → Nat → SendResult × List (List Nat)
  | i, 0 =>
    if acks i then (SendResult.success, [completionReport oled_side])
    else (SendResult.completionTimeout, [completionReport oled_side])
  | i, fuel + 1 =>
    if acks i then
      let rest := sendFrom oled_side bytes_data acks (i + 1) fuel
      (rest.1, chunkReport oled_side bytes_data i :: rest.2)
    else (SendResult.chunkTimeout i, [chunkReport oled_side bytes_data i])

/-- `send_to_oled` (lines 354-432), abstracted over the acknowledgment
oracle: run the chunk loop over all `totalChunks` chunks, then the
completion handshake. -/
def send_to_oled (oled_side : String) (bytes_data : List Nat) (acks : Nat → Bool) :
    SendResult × List (List Nat) :=
  sendFrom oled_side bytes_data acks 0 (totalChunks bytes_data)

/-! ## Protocol version negotiator (`get_protocol_version`, lines 124-146) -/

/-- The version-query report `[0x00, VIA_COMMAND_GET_PROTOCOL_VERSION] + [0] * 30`
(line 128). -/
def versionCommand : List Nat :=
  [0x00, VIA_COMMAND_GET_PROTOCOL_VERSION] ++ List.replicate 30 0

/-- `get_protocol_version` (lines 124-146), abstracted over the transport:
`response` is what `read_with_timeout` (1 s timeout) returned, `none`
covering both timeout and any I/O exception (the `except` clause returns
`None`).  The source checks `if response:` (non-empty) and
`len(response) >= 3`, returning `response[2]`. -/
def get_protocol_version (response : Option (List Nat)) : Option Nat :=
  match response with
  | none => none
  | some r => if r ≠ [] then (if 3 ≤ r.length then r[2]? else none) else none

/-! ## Device discovery (`connect_hid`, lines 78-122)

Each enumerated candidate path either fails to open (`hid.Device` raises,
line 104: log and continue, nothing to close) or opens; an opened device
is probed with `get_protocol_version`, and the first candidate whose probe
returns a version is kept open and returned (line 97); a candidate whose
probe fails is closed (line 100) and the loop continues. -/

/-- A candidate device path, by the two outcomes that drive `connect_hid`:
whether `hid.Device(path=...)` succeeds, and whether `get_protocol_version`
on the opened handle returns a version. -/
structure Candidate where
  opens : Bool
  handshakeOk : Bool
deriving DecidableEq, Repr

/-- Observable device-handle events of a discovery run, tagged with the
candidate's index in enumeration order. -/
inductive DiscEvent
  | openOk (i : Nat)
  | openFail (i : Nat)
  | handshake (i : Nat)
  | close (i : Nat)
deriving DecidableEq, Repr

/-- The `for device_info in devices:` loop of `connect_hid` (lines 85-109),
with `i` the index of the first remaining candidate; returns the index of
the device returned connected (or `none`) and the event trace. -/
def connectAux : List Candidate → Nat → Option Nat × List DiscEvent
  | [], _ => (none, [])
  | c :: rest, i =>
    if c.opens then
      if c.handshakeOk then (some i, [DiscEvent.openOk i, DiscEvent.handshake i])
      else
        let r := connectAux rest (i + 1)
        (r.1, DiscEvent.openOk i :: DiscEvent.handshake i :: DiscEvent.close i :: r.2)
    else
      let r := connectAux rest (i + 1)
      (r.1, DiscEvent.openFail i :: r.2)

/-- `connect_hid` (lines 78-122) over the enumerated candidate list. -/
def connect_hid (candidates : List Candidate) : Option Nat × List DiscEvent :=
  connectAux candidates 0

/-! ## Helper lemmas about chunks, reports and the transfer trace -/

lemma chunkOf_eq_take (bytes_data : List Nat) (i : Nat) :
    chunkOf bytes_data i = (bytes_data.drop (i * chunk_size)).take chunk_size := by
  unfold chunkOf
  rw [List.take_eq_take]
  have h := List.length_drop (i * chunk_size) bytes_data
  omega

lemma length_chunkOf (bytes_data : List Nat) (i : Nat) :
    (chunkOf bytes_data i).length =
      min (i * chunk_size + chunk_size) bytes_data.length - i * chunk_size := by
  unfold chunkOf
  rw [List.length_take, List.length_drop]
  omega

lemma length_chunkOf_le (bytes_data : List Nat) (i : Nat) :
    (chunkOf bytes_data i).length ≤ 28 := by
  rw [length_chunkOf]
  simp only [chunk_size]
  omega

lemma getD_chunkOf (bytes_data : List Nat) (i j : Nat) (hj : j < (chunkOf bytes_data i).length) :
    (chunkOf bytes_data i).getD j 0 = bytes_data.getD (i * chunk_size + j) 0 := by
  rw [chunkOf_eq_take] at hj ⊢
  have hjc : j < chunk_size := by
    rw [List.length_take] at hj
    omega
  rw [List.getD_eq_getElem?_getD, List.getElem?_take_of_lt hjc,
    List.getElem?_drop, List.getD_eq_getElem?_getD]

lemma length_chunkReport (oled_side : String) (bytes_data : List Nat) (i : Nat) :
    (chunkReport oled_side bytes_data i).length = 32 := by
  have h := length_chunkOf_le bytes_data i
  unfold chunkReport padTo32
  simp only [List.length_append, List.length_replicate, List.length_cons, List.length_nil]
  omega

lemma length_completionReport (oled_side : String) :
    (completionReport oled_side).length = 32 := by
  simp [completionReport]

lemma chunkReport_cons (oled_side : String) (bytes_data : List Nat) (i : Nat) :
    chunkReport oled_side bytes_data i =
      0x00 :: VIA_COMMAND_OLED :: panelByte oled_side :: i ::
        (chunkOf bytes_data i ++
          List.replicate (32 - (4 + (chunkOf bytes_data i).length)) 0) := by
  unfold chunkReport padTo32
  simp
  omega

lemma getD_chunkReport_zero (oled_side : String) (bytes_data : List Nat) (i : Nat) :
    (chunkReport oled_side bytes_data i).getD 0 1 = 0 := by
  rw [chunkReport_cons]; rfl

lemma getD_chunkReport_two (oled_side : String) (bytes_data : List Nat) (i : Nat) :
    (chunkReport oled_side bytes_data i).getD 2 0 = panelByte oled_side := by
  rw [chunkReport_cons]; rfl

lemma getD_chunkReport_three (oled_side : String) (bytes_data : List Nat) (i : Nat) :
    (chunkReport oled_side bytes_data i).getD 3 0 = i := by
  rw [chunkReport_cons]; rfl

lemma getD_completionReport_zero (oled_side : String) :
    (completionReport oled_side).getD 0 1 = 0 := rfl

lemma getD_completionReport_three (oled_side : String) :
    (completionReport oled_side).getD 3 0 = 0xFF := rfl

lemma mem_sendFrom_writes {oled_side : String} {bytes_data : List Nat} {acks : Nat → Bool}
    {r : List Nat} :
    ∀ {fuel i : Nat}, r ∈ (sendFrom oled_side bytes_data acks i fuel).2 →
      (∃ j, i ≤ j ∧ j < i + fuel ∧ r = chunkReport oled_side bytes_data j) ∨
        r = completionReport oled_side := by
  intro fuel
  induction fuel with
  | zero =>
    intro i h
    simp only [sendFrom] at h
    split at h <;> simpa using Or.inr (by simpa using h)
  | succ n ih =>
    intro i h
    simp only [sendFrom] at h
    split at h
    · simp only [List.mem_cons] at h
      rcases h with h | h
      · exact Or.inl ⟨i, le_refl i, by omega, h⟩
      · rcases ih h with ⟨j, hj1, hj2, hj3⟩ | hc
        · exact Or.inl ⟨j, by omega, by omega, hj3⟩
        · exact Or.inr hc
    · simp only [List.mem_singleton] at h
      exact Or.inl ⟨i, le_refl i, by omega, h⟩

lemma sendFrom_writes_of_success {oled_side : String} {bytes_data : List Nat}
    {acks : Nat → Bool} :
    ∀ {fuel i : Nat}, (sendFrom oled_side bytes_data acks i fuel).1 = SendResult.success →
      (sendFrom oled_side bytes_data acks i fuel).2 =
        (List.range' i fuel).map (chunkReport oled_side bytes_data) ++
          [completionReport oled_side] := by
  intro fuel
  induction fuel with
  | zero =>
    intro i h
    simp only [sendFrom] at h ⊢
    split at h <;> simp_all
  | succ n ih =>
    intro i h
    simp only [sendFrom] at h ⊢
    split at h
    · rename_i hack
      rw [if_pos hack]
      simp only [List.range'_succ, List.map_cons, List.cons_append]
      exact congrArg _ (ih h)
    · exact absurd h (by simp)

lemma sendFrom_abort {oled_side : String} {bytes_data : List Nat} {acks : Nat → Bool}
    {t : Nat} (hfail : acks t = false) :
    ∀ {fuel i : Nat}, i ≤ t → t < i + fuel → (∀ j, i ≤ j → j < t → acks j = true) →
      sendFrom oled_side bytes_data acks i fuel =
        (SendResult.chunkTimeout t,
          (List.range' i (t - i + 1)).map (chunkReport oled_side bytes_data)) := by
  intro fuel
  induction fuel with
  | zero => intro i h1 h2; omega
  | succ n ih =>
    intro i h1 h2 hall
    by_cases hit : i = t
    · subst hit
      have hc : ¬ (acks i = true) := by simp [hfail]
      simp only [sendFrom, if_neg hc]
      simp
    · have hi : acks i = true := hall i (le_refl i) (by omega)
      simp only [sendFrom, hi, if_pos rfl]
      rw [ih (by omega) (by omega) (fun j hj1 hj2 => hall j (by omega) hj2)]
      have hr : t - i + 1 = (t - (i + 1) + 1) + 1 := by omega
      rw [hr]
      simp [List.range'_succ]

/-- Default candidate used only as the `List.getD` fallback in statements. -/
def noCand : Candidate := ⟨false, false⟩

lemma connectAux_spec (cs : List Candidate) :
    ∀ (s k : Nat), k < cs.length →
      (cs.getD k noCand).opens = true →
      (cs.getD k noCand).handshakeOk = true →
      (∀ j, j < k → (cs.getD j noCand).opens = true →
        (cs.getD j noCand).handshakeOk = false) →
      (connectAux cs s).1 = some (s + k) ∧
        (∀ i, DiscEvent.handshake i ∈ (connectAux cs s).2 → i ≤ s + k) ∧
        (∀ j, j < k → (cs.getD j noCand).opens = true →
          DiscEvent.close (s + j) ∈ (connectAux cs s).2) ∧
        DiscEvent.close (s + k) ∉ (connectAux cs s).2 := by
  induction cs with
  | nil => intro s k hk; simp at hk
  | cons c rest ih =>
    intro s k hk hopen hhs hprev
    match k with
    | 0 =>
      simp only [List.getD_cons_zero] at hopen hhs
      simp only [connectAux, hopen, hhs, if_pos, if_true]
      refine ⟨by simp, ?_, by omega, by simp⟩
      intro i hi
      simp only [List.mem_cons, List.mem_singleton] at hi
      rcases hi with hi | hi | hi <;> simp_all
    | k' + 1 =>
      have hk' : k' < rest.length := by simpa using hk
      simp only [List.getD_cons_succ] at hopen hhs
      have hprev' : ∀ j, j < k' → (rest.getD j noCand).opens = true →
          (rest.getD j noCand).handshakeOk = false := by
        intro j hj
        have := hprev (j + 1) (by omega)
        simpa using this
      by_cases hop : c.opens = true
      · have hcf : c.handshakeOk = false := by
          have := hprev 0 (by omega)
          simpa [hop] using this
        have hcf' : ¬ (c.handshakeOk = true) := by simp [hcf]
        obtain ⟨ih1, ih2, ih3, ih4⟩ := ih (s + 1) k' hk' hopen hhs hprev'
        simp only [connectAux, hop, if_pos, if_true, if_neg hcf']
        refine ⟨?_, ?_, ?_, ?_⟩
        · rw [show s + (k' + 1) = (s + 1) + k' by omega]
          exact ih1
        · intro i hi
          simp only [List.mem_cons] at hi
          rcases hi with hi | hi | hi | hi
          · simp at hi
          · have : i = s := by
              cases hi
              rfl
            omega
          · simp at hi
          · have := ih2 i hi
            omega
        · intro j hj hjo
          match j with
          | 0 => simp
          | j' + 1 =>
            simp only [List.getD_cons_succ] at hjo
            have := ih3 j' (by omega) hjo
            simp only [List.mem_cons]
            right; right; right
            rw [show s + (j' + 1) = (s + 1) + j' by omega]
            exact this
        · intro hmem
          simp only [List.mem_cons] at hmem
          rcases hmem with hmem | hmem | hmem | hmem
          · simp at hmem
          · simp at hmem
          · simp only [DiscEvent.close.injEq] at hmem
            omega
          · rw [show s + (k' + 1) = (s + 1) + k' by omega] at hmem
            exact ih4 hmem
      · have hop' : c.opens = false := by
          cases h : c.opens
          · rfl
          · exact absurd h hop
        obtain ⟨ih1, ih2, ih3, ih4⟩ := ih (s + 1) k' hk' hopen hhs hprev'
        simp only [connectAux, hop', Bool.false_eq_true, if_false]
        refine ⟨?_, ?_, ?_, ?_⟩
        · rw [show s + (k' + 1) = (s + 1) + k' by omega]
          exact ih1
        · intro i hi
          simp only [List.mem_cons] at hi
          rcases hi with hi | hi
          · simp at hi
          · have := ih2 i hi
            omega
        · intro j hj hjo
          match j with
          | 0 =>
            simp only [List.getD_cons_zero] at hjo
            exact absurd hjo hop
          | j' + 1 =>
            simp only [List.getD_cons_succ] at hjo
            have := ih3 j' (by omega) hjo
            simp only [List.mem_cons]
            right
            rw [show s + (j' + 1) = (s + 1) + j' by omega]
            exact this
        · intro hmem
          simp only [List.mem_cons] at hmem
          rcases hmem with hmem | hmem
          · simp at hmem
          · rw [show s + (k' + 1) = (s + 1) + k' by omega] at hmem
            exact ih4 hmem

lemma sendFrom_fst_of_acks_true {oled_side : String} {bytes_data : List Nat}
    {acks : Nat → Bool} (hacks : ∀ n, acks n = true) :
    ∀ (fuel i : Nat), (sendFrom oled_side bytes_data acks i fuel).1 = SendResult.success := by
  intro fuel
  induction fuel with
  | zero => intro i; simp [sendFrom, hacks i]
  | succ n ih => intro i; simp [sendFrom, hacks i, ih]

/-! ## Claim theorems -/

/-- C3: packing a W×H 1-bit-per-pixel row-major buffer groups pixels 8 per
byte with the first pixel of each group in the most-significant bit and
zero bits padding a truncated final group; the packed length is
`ceil(W*H/8)`, and unpacking the packed stream (reversing the
bit-grouping) reproduces the original pixel buffer exactly. -/
theorem packBits_roundtrip (W H : Nat) (pixels : List Nat)
    (hlen : pixels.length = W * H) (hbit : ∀ p ∈ pixels, p ≤ 1) :
    (packBits pixels).length = (W * H + 7) / 8 ∧
      unpackBits (packBits pixels) (W * H) = pixels := by
  constructor
  · rw [length_packBits, hlen]
  · rw [← hlen]
    exact unpackBits_packBits pixels hbit

theorem packBits_roundtrip_witness :
    (packBits [1, 0, 1, 1, 0, 0, 0, 1, 1, 0]).length = (2 * 5 + 7) / 8 ∧
      unpackBits (packBits [1, 0, 1, 1, 0, 0, 0, 1, 1, 0]) (2 * 5) =
        [1, 0, 1, 1, 0, 0, 0, 1, 1, 0] :=
  packBits_roundtrip 2 5 [1, 0, 1, 1, 0, 0, 0, 1, 1, 0] (by decide) (by decide)

/-- C2: for a packed bitmap of length L > 0, a completed transfer writes
exactly `N = ceil(L/28)` data chunks (then the completion report); chunk
`i` covers bytes `[i*28, min((i+1)*28, L))`; and the final data chunk's
length equals `L - 28*(N-1)`, which lies in `[1, 28]`. -/
theorem send_to_oled_chunking (oled_side : String) (bytes_data : List Nat)
    (acks : Nat → Bool) (hpos : 0 < bytes_data.length)
    (hsucc : (send_to_oled oled_side bytes_data acks).1 = SendResult.success) :
    totalChunks bytes_data = (bytes_data.length + 27) / 28 ∧
    (send_to_oled oled_side bytes_data acks).2 =
      (List.range (totalChunks bytes_data)).map (chunkReport oled_side bytes_data) ++
        [completionReport oled_side] ∧
    (∀ i, i < totalChunks bytes_data →
      (chunkOf bytes_data i).length = min ((i + 1) * 28) bytes_data.length - i * 28 ∧
      ∀ j, j < (chunkOf bytes_data i).length →
        (chunkOf bytes_data i).getD j 0 = bytes_data.getD (i * 28 + j) 0) ∧
    (chunkOf bytes_data (totalChunks bytes_data - 1)).length =
      bytes_data.length - 28 * (totalChunks bytes_data - 1) ∧
    1 ≤ (chunkOf bytes_data (totalChunks bytes_data - 1)).length ∧
    (chunkOf bytes_data (totalChunks bytes_data - 1)).length ≤ 28 := by
  have htc : totalChunks bytes_data = (bytes_data.length + 27) / 28 := by
    simp only [totalChunks, chunk_size]
    omega
  refine ⟨htc, ?_, ?_, ?_, ?_, ?_⟩
  · unfold send_to_oled at hsucc ⊢
    rw [sendFrom_writes_of_success hsucc, List.range_eq_range']
  · intro i hi
    constructor
    · rw [length_chunkOf]
      simp only [chunk_size]
      omega
    · intro j hj
      rw [getD_chunkOf bytes_data i j hj]
      simp only [chunk_size]
  · rw [length_chunkOf, htc]
    simp only [chunk_size]
    omega
  · rw [length_chunkOf, htc]
    simp only [chunk_size]
    omega
  · rw [length_chunkOf, htc]
    simp only [chunk_size]
    omega

theorem send_to_oled_chunking_witness :
    (send_to_oled "left" (List.replicate 30 1) (fun _ => true)).2 =
      (List.range 2).map (chunkReport "left" (List.replicate 30 1)) ++
        [completionReport "left"] := by
  have h := send_to_oled_chunking "left" (List.replicate 30 1) (fun _ => true)
    (by decide) (by decide)
  have ht : totalChunks (List.replicate 30 1) = 2 := by decide
  have h2 := h.2.1
  rw [ht] at h2
  exact h2

/-- C4: every report the program writes to the device — the version query,
every data chunk and the completion report — is exactly 32 bytes long with
byte 0 equal to 0x00 (shorter reports are zero-padded). -/
theorem reports_are_32_bytes (oled_side : String) (bytes_data : List Nat)
    (acks : Nat → Bool) (r : List Nat)
    (hr : r ∈ versionCommand :: (send_to_oled oled_side bytes_data acks).2) :
    r.length = 32 ∧ r.getD 0 1 = 0 := by
  simp only [List.mem_cons] at hr
  rcases hr with rfl | hr
  · exact ⟨by decide, by decide⟩
  · rcases mem_sendFrom_writes hr with ⟨j, _, _, rfl⟩ | rfl
    · exact ⟨length_chunkReport _ _ _, getD_chunkReport_zero _ _ _⟩
    · exact ⟨length_completionReport _, getD_completionReport_zero _⟩

theorem reports_are_32_bytes_witness :
    versionCommand.length = 32 ∧ versionCommand.getD 0 1 = 0 :=
  reports_are_32_bytes "left" [] (fun _ => true) versionCommand (List.mem_cons_self _ _)

/-- C5: when the chunk count satisfies N ≤ 255, no data-chunk report has
chunk-index byte (offset 3) equal to 0xFF, the completion report always
does, and in any run's write trace byte 3 equals 0xFF exactly for the
completion report. -/
theorem sentinel_distinct (oled_side : String) (bytes_data : List Nat)
    (acks : Nat → Bool) (hN : totalChunks bytes_data ≤ 255) :
    (∀ i, i < totalChunks bytes_data →
      (chunkReport oled_side bytes_data i).getD 3 0 ≠ 0xFF) ∧
    (completionReport oled_side).getD 3 0 = 0xFF ∧
    (∀ r, r ∈ (send_to_oled oled_side bytes_data acks).2 →
      ((r.getD 3 0 = 0xFF) ↔ r = completionReport oled_side)) := by
  refine ⟨?_, getD_completionReport_three _, ?_⟩
  · intro i hi
    rw [getD_chunkReport_three]
    omega
  · intro r hr
    constructor
    · intro h255
      rcases mem_sendFrom_writes hr with ⟨j, hj1, hj2, rfl⟩ | rfl
      · rw [getD_chunkReport_three] at h255
        omega
      · rfl
    · intro hc
      rw [hc]
      exact getD_completionReport_three _

theorem sentinel_distinct_witness :
    (completionReport "left").getD 3 0 = 0xFF ∧
      (chunkReport "left" [1] 0).getD 3 0 ≠ 0xFF := by
  have h := sentinel_distinct "left" [1] (fun _ => true) (by decide)
  exact ⟨h.2.1, h.1 0 (by decide)⟩

/-- C6: when the k-th candidate path is the first whose version handshake
succeeds, discovery returns exactly that device with its handle never
closed, performs no handshake attempt on any candidate after index k, and
closes the handle of every earlier candidate that opened (its handshake
having failed). -/
theorem connect_hid_first_success (candidates : List Candidate) (k : Nat)
    (hk : k < candidates.length)
    (hopen : (candidates.getD k noCand).opens = true)
    (hhs : (candidates.getD k noCand).handshakeOk = true)
    (hprev : ∀ j, j < k → (candidates.getD j noCand).opens = true →
      (candidates.getD j noCand).handshakeOk = false) :
    (connect_hid candidates).1 = some k ∧
      (∀ i, DiscEvent.handshake i ∈ (connect_hid candidates).2 → i ≤ k) ∧
      (∀ j, j < k → (candidates.getD j noCand).opens = true →
        DiscEvent.close j ∈ (connect_hid candidates).2) ∧
      DiscEvent.close k ∉ (connect_hid candidates).2 := by
  have h := connectAux_spec candidates 0 k hk hopen hhs hprev
  simpa [connect_hid] using h

theorem connect_hid_first_success_witness :
    (connect_hid [⟨false, true⟩, ⟨true, false⟩, ⟨true, true⟩]).1 = some 2 ∧
      DiscEvent.close 1 ∈ (connect_hid [⟨false, true⟩, ⟨true, false⟩, ⟨true, true⟩]).2 ∧
      DiscEvent.close 2 ∉ (connect_hid [⟨false, true⟩, ⟨true, false⟩, ⟨true, true⟩]).2 := by
  have h := connect_hid_first_success [⟨false, true⟩, ⟨true, false⟩, ⟨true, true⟩] 2
    (by decide) (by decide) (by decide) (by decide)
  exact ⟨h.1, h.2.2.1 1 (by decide) (by decide), h.2.2.2⟩

/-- C7: if every acknowledgment before chunk i arrives but chunk i's never
does (its 0.5 s read times out), the transfer aborts with the chunk-i
timeout error and its writes are exactly chunks 0..i — no later chunk and
no completion report.  The case i = 0 is a transport that writes
successfully but never produces any response. -/
theorem send_to_oled_missing_ack (oled_side : String) (bytes_data : List Nat)
    (acks : Nat → Bool) (i : Nat) (hi : i < totalChunks bytes_data)
    (hprev : ∀ j, j < i → acks j = true) (hfail : acks i = false) :
    send_to_oled oled_side bytes_data acks =
      (SendResult.chunkTimeout i,
        (List.range (i + 1)).map (chunkReport oled_side bytes_data)) := by
  unfold send_to_oled
  rw [sendFrom_abort hfail (by omega) (by omega) (fun j _ hj2 => hprev j hj2)]
  have he : i - 0 + 1 = i + 1 := by omega
  rw [he, List.range_eq_range']

theorem send_to_oled_missing_ack_witness :
    send_to_oled "left" [1, 2, 3] (fun _ => false) =
      (SendResult.chunkTimeout 0,
        (List.range 1).map (chunkReport "left" [1, 2, 3])) :=
  send_to_oled_missing_ack "left" [1, 2, 3] (fun _ => false) 0 (by decide)
    (fun j hj => absurd hj (by omega)) rfl

/-- C8: a zero-length packed bitmap yields N = 0: the transfer writes no
data chunk and exactly one completion report, and succeeds if and only if
the completion acknowledgment (the session's only read) is observed. -/
theorem send_to_oled_empty (oled_side : String) (acks : Nat → Bool) :
    totalChunks [] = 0 ∧
      send_to_oled oled_side [] acks =
        ((if acks 0 then SendResult.success else SendResult.completionTimeout),
          [completionReport oled_side]) := by
  refine ⟨rfl, ?_⟩
  unfold send_to_oled
  by_cases h : acks 0 <;> simp [totalChunks, sendFrom, h]

/-- C9: the version probe returns `some version` exactly when a response of
at least 3 bytes was received (within the 1-second read timeout), the
version being byte index 2 of the response; a timeout, an I/O exception
(both modelled by `response = none`) or a shorter response yields `none`
rather than an error. -/
theorem get_protocol_version_spec (response : Option (List Nat)) (v : Nat) :
    get_protocol_version response = some v ↔
      ∃ r, response = some r ∧ 3 ≤ r.length ∧ r[2]? = some v := by
  cases response with
  | none => simp [get_protocol_version]
  | some r =>
    by_cases h3 : 3 ≤ r.length
    · have hne : r ≠ [] := by
        intro he
        rw [he] at h3
        simp at h3
      simp [get_protocol_version, hne, h3]
    · by_cases hne : r = [] <;> simp [get_protocol_version, hne, h3]

/-- C10: byte offset 2 of every transfer report is 0x01 when the panel
argument is the exact string "left" and 0x02 for every other string — the
code validates nothing, so any other value (including misspellings) is
transmitted as the Right panel selector. -/
theorem panel_selector_byte (oled_side : String) (bytes_data : List Nat)
    (acks : Nat → Bool) (r : List Nat)
    (hr : r ∈ (send_to_oled oled_side bytes_data acks).2) :
    r.getD 2 0 = (if oled_side = "left" then 0x01 else 0x02) := by
  rcases mem_sendFrom_writes hr with ⟨j, _, _, rfl⟩ | rfl
  · rw [getD_chunkReport_two]
    rfl
  · show (completionReport oled_side).getD 2 0 = _
    simp [completionReport, panelByte, List.getD]

theorem panel_selector_byte_witness :
    (completionReport "lefty").getD 2 0 = 0x02 := by
  have h := panel_selector_byte "lefty" [] (fun _ => true) (completionReport "lefty")
    (by decide)
  simpa using h

/-- C1: counter-evidence.  The source has no size guard: for a packed
bitmap of 7168 bytes the chunk count is 256 > 255, yet the fully
acknowledged run performs 257 device writes and returns success — and data
chunk 255 carries chunk-index byte 0xFF, colliding with the completion
sentinel — instead of failing before any I/O as the specified
`BitmapTooLarge` precondition check would require. -/
theorem send_to_oled_no_size_guard :
    totalChunks (List.replicate 7168 0) = 256 ∧
    255 < totalChunks (List.replicate 7168 0) ∧
    (send_to_oled "left" (List.replicate 7168 0) (fun _ => true)).1 =
      SendResult.success ∧
    (send_to_oled "left" (List.replicate 7168 0) (fun _ => true)).2.length = 257 ∧
    (chunkReport "left" (List.replicate 7168 0) 255).getD 3 0 = 0xFF := by
  have ht : totalChunks (List.replicate 7168 0) = 256 := by
    simp only [totalChunks, chunk_size, List.length_replicate]
  have hsucc : (send_to_oled "left" (List.replicate 7168 0) (fun _ => true)).1 =
      SendResult.success :=
    sendFrom_fst_of_acks_true (fun _ => rfl) _ _
  refine ⟨ht, by omega, hsucc, ?_, ?_⟩
  · unfold send_to_oled at hsucc ⊢
    rw [sendFrom_writes_of_success hsucc, List.length_append, List.length_map,
      List.length_range', ht]
    rfl
  · rw [getD_chunkReport_three]

end Oled
